import Mathlib

/-
Verification of the annohelper core (annohelper.py): the span-ledger
normalization algorithm (Checkpoint.cleanup) and the session state machine
(Checkpoint head movement, save, and the AnnotationApp open/next/prev/save
wrappers), shallowly embedded in Lean.
-/

namespace Annohelper

/-- Markup record from the source: a (start, stop, status) triple.
Status HIGH = true (selected), LOW = false (deselected). -/
abbrev Markup := Nat × Nat × Bool

/-- Status label HIGH (selected) from the source. -/
def HIGH : Bool := true

/-- Status label LOW (deselected) from the source. -/
def LOW : Bool := false

/-- Python list slice assignment `l[start:stop] = v` for nonnegative indices:
the slice (clamped to the list length, empty when start >= stop) is replaced
by `v`, extending the list when `v` is longer than the replaced slice. -/
def setSlice (l : List Bool) (start stop : Nat) (v : List Bool) : List Bool :=
  l.take start ++ v ++ l.drop (max start stop)

/-- One iteration of the write loop in `Checkpoint.cleanup`:
`annotation[start:stop] = [status] * (stop - start)` (a nonpositive Python
length gives the empty list, as does truncated subtraction here). -/
def applyMarkup (l : List Bool) (m : Markup) : List Bool :=
  setSlice l m.1 m.2.1 (List.replicate (m.2.1 - m.1) m.2.2)

/-- The `max(map(op.itemgetter(1), markups))` expression in
`Checkpoint.cleanup`; all stops are naturals, so folding max from 0 computes
the Python maximum of a nonempty list. -/
def maxStop (ms : List Markup) : Nat :=
  (ms.map (fun m => m.2.1)).foldl max 0

/-- itertools.groupby over the enumerated status array, keyed on the status
component and keeping the position components of each group, fused with the
`map(op.itemgetter(0), run)` projection of `Checkpoint.cleanup`. Building the
grouping from the right yields the same maximal runs of equal status that
Python's left-to-right groupby produces. -/
def groupRuns : List (Nat × Bool) → List (Bool × List Nat)
  | [] => []
  | (i, b) :: rest =>
    match groupRuns rest with
    | [] => [(b, [i])]
    | (b', ks) :: gs =>
      if b = b' then (b, i :: ks) :: gs else (b, [i]) :: (b', ks) :: gs

/-- Shallow embedding of `Checkpoint.cleanup`. The Python initial fill value
0 compares equal to False under groupby's key and under `status == HIGH`, so
it is embedded as `false`. -/
def cleanup (markups : List Markup) : List Markup :=
  match markups with
  | [] => []
  | _ :: _ =>
    let maxpos := maxStop markups - 1
    let ann := markups.foldl applyMarkup (List.replicate maxpos false)
    let positive :=
      ((groupRuns ann.enum).filter (fun g => g.1 == HIGH)).map (fun g => g.2)
    positive.map (fun run => (run.headD 0, run.getLastD 0 + 1, HIGH))

/-- Spec-side function: the status written at character position p by the
last edit record whose range [start, stop) contains p, or false (DESELECTED)
when no record covers p. -/
def lastStatus (ms : List Markup) (p : Nat) : Bool :=
  ms.foldl (fun acc m => if m.1 ≤ p ∧ p < m.2.1 then m.2.2 else acc) false

/-- Position p lies inside some interval of the markup list. -/
def memSel (out : List Markup) (p : Nat) : Prop :=
  ∃ m ∈ out, m.1 ≤ p ∧ p < m.2.1

instance (out : List Markup) (p : Nat) : Decidable (memSel out p) :=
  List.decidableBEx _ out

/-- Spec-side normal form: every interval has start < stop and status
SELECTED, and the intervals are strictly sorted with pairwise gaps (each
interval ends strictly before the next one starts, hence they are disjoint
and non-adjacent). -/
def NormalizedL (xs : List Markup) : Prop :=
  (∀ m ∈ xs, m.1 < m.2.1 ∧ m.2.2 = true) ∧
    List.Pairwise (fun a b : Markup => a.2.1 < b.1) xs

instance (xs : List Markup) : Decidable (NormalizedL xs) := by
  unfold NormalizedL; infer_instance

lemma getD_replicate_false (k p : Nat) :
    (List.replicate k false).getD p false = false := by
  rw [List.getD_eq_getElem?_getD, List.getElem?_replicate]
  split <;> rfl

lemma setSlice_getD (l : List Bool) (start stop : Nat) (c : Bool) (p : Nat)
    (h : start ≤ l.length) (hss : start < stop) :
    (setSlice l start stop (List.replicate (stop - start) c)).getD p false =
      if start ≤ p ∧ p < stop then c else l.getD p false := by
  have hmax : max start stop = stop := Nat.max_eq_right (le_of_lt hss)
  have hlt : (l.take start).length = start := by
    rw [List.length_take]; omega
  have hlen : (l.take start ++ List.replicate (stop - start) c).length = stop := by
    rw [List.length_append, hlt, List.length_replicate]; omega
  rw [setSlice, hmax, List.getD_eq_getElem?_getD, List.getD_eq_getElem?_getD]
  by_cases h2 : p < stop
  · rw [List.getElem?_append_left (by rw [hlen]; exact h2)]
    by_cases h1 : p < start
    · rw [List.getElem?_append_left (by rw [hlt]; exact h1), List.getElem?_take,
        if_pos h1, if_neg (by omega)]
    · rw [List.getElem?_append_right (by rw [hlt]; omega), List.getElem?_replicate,
        if_pos (by rw [hlt]; omega), if_pos (by omega)]
      rfl
  · rw [List.getElem?_append_right (by rw [hlen]; omega), List.getElem?_drop,
      if_neg (by omega)]
    have heq : stop + (p - (l.take start ++ List.replicate (stop - start) c).length)
        = p := by
      rw [hlen]; omega
    rw [heq]

lemma applyMarkup_invalid (l : List Bool) (m : Markup) (h : m.2.1 ≤ m.1) :
    applyMarkup l m = l := by
  rw [applyMarkup, setSlice, Nat.sub_eq_zero_of_le h, List.replicate_zero,
    List.append_nil, Nat.max_eq_left h, List.take_append_drop]

lemma applyMarkup_length_le (l : List Bool) (m : Markup) :
    l.length ≤ (applyMarkup l m).length := by
  rcases le_or_lt m.2.1 m.1 with hss | hss
  · rw [applyMarkup_invalid l m hss]
  · simp only [applyMarkup, setSlice, List.length_append, List.length_take,
      List.length_replicate, List.length_drop, Nat.max_eq_right (le_of_lt hss)]
    rcases le_or_lt m.1 l.length with h | h
    · rw [Nat.min_eq_left h]; omega
    · rw [Nat.min_eq_right (le_of_lt h)]; omega

lemma applyMarkup_getD (l : List Bool) (m : Markup) (p : Nat)
    (h : m.1 < m.2.1 → m.1 ≤ l.length) :
    (applyMarkup l m).getD p false =
      if m.1 ≤ p ∧ p < m.2.1 then m.2.2 else l.getD p false := by
  rcases le_or_lt m.2.1 m.1 with hss | hss
  · rw [applyMarkup_invalid l m hss, if_neg (by omega)]
  · exact setSlice_getD l m.1 m.2.1 m.2.2 p (h hss) hss

lemma foldl_applyMarkup_getD (p : Nat) :
    ∀ (ms : List Markup) (l : List Bool),
      (∀ m ∈ ms, m.1 < m.2.1 → m.1 ≤ l.length) →
      (ms.foldl applyMarkup l).getD p false =
        ms.foldl (fun acc m => if m.1 ≤ p ∧ p < m.2.1 then m.2.2 else acc)
          (l.getD p false)
  | [], _, _ => rfl
  | m :: ms, l, h => by
    rw [List.foldl_cons, List.foldl_cons,
      ← applyMarkup_getD l m p (h m (List.mem_cons_self m ms))]
    exact foldl_applyMarkup_getD p ms (applyMarkup l m) (fun m' hm' hv =>
      le_trans (h m' (List.mem_cons_of_mem _ hm') hv) (applyMarkup_length_le l m))

lemma foldl_max_init_le : ∀ (l : List Nat) (a : Nat), a ≤ l.foldl max a
  | [], _ => le_refl _
  | x :: l, a =>
    le_trans (le_max_left a x) (foldl_max_init_le l (max a x))

lemma le_foldl_max : ∀ (l : List Nat) (a b : Nat), b ∈ l → b ≤ l.foldl max a
  | [], _, b, h => absurd h (List.not_mem_nil b)
  | x :: l, a, b, h => by
    rcases List.mem_cons.mp h with rfl | h'
    · exact le_trans (le_max_right a b) (foldl_max_init_le l (max a b))
    · exact le_foldl_max l (max a x) b h'

lemma stop_le_maxStop (ms : List Markup) (m : Markup) (hm : m ∈ ms) :
    m.2.1 ≤ maxStop ms :=
  le_foldl_max _ 0 m.2.1 (List.mem_map_of_mem (fun m => m.2.1) hm)

/-- The dense status array built by cleanup reads, at every position, the
status of the last record covering that position. -/
lemma cleanup_ann_getD (ms : List Markup) (p : Nat) :
    (ms.foldl applyMarkup (List.replicate (maxStop ms - 1) false)).getD p false =
      lastStatus ms p := by
  rw [foldl_applyMarkup_getD p ms _ (fun m hm hv => by
    have := stop_le_maxStop ms m hm
    rw [List.length_replicate]; omega), getD_replicate_false]
  rfl

/-- Gap relation on groups: the run of the first group ends strictly before
the run of the second begins. -/
def gapR (g g' : Bool × List Nat) : Prop :=
  g.2.headD 0 + g.2.length < g'.2.headD 0

lemma groupRuns_cons (i : Nat) (b : Bool) (rest : List (Nat × Bool)) :
    groupRuns ((i, b) :: rest) =
      match groupRuns rest with
      | [] => [(b, [i])]
      | (b', ks) :: gs =>
        if b = b' then (b, i :: ks) :: gs else (b, [i]) :: (b', ks) :: gs := rfl

lemma headD_mem (l : List Nat) (d : Nat) (h : l ≠ []) : l.headD d ∈ l := by
  cases l with
  | nil => exact absurd rfl h
  | cons x xs => rw [List.headD_cons]; exact List.mem_cons_self x xs

lemma range'_getLastD : ∀ (k s d : Nat), 1 ≤ k →
    (List.range' s k).getLastD d = s + k - 1
  | 0, _, _, h => absurd h (by omega)
  | 1, s, d, _ => by
    rw [List.range'_one, List.getLastD_cons, List.getLastD_nil]
    omega
  | (k + 2), s, d, _ => by
    rw [List.range'_succ, List.getLastD_cons,
      range'_getLastD (k + 1) (s + 1) s (by omega)]
    omega

lemma chain'_of_len_le_one {α : Type} (R : α → α → Prop) :
    ∀ (l : List α), l.length ≤ 1 → List.Chain' R l
  | [], _ => List.chain'_nil
  | [a], _ => List.chain'_singleton a

/-- The grouping of the enumerated status array into runs: the groups
partition the positions in order, successive groups carry distinct statuses,
each group is a contiguous nonempty block whose status agrees with the array,
and the SELECTED groups are separated by strict gaps. -/
lemma groupRuns_spec (l : List Bool) : ∀ (n : Nat),
    ((groupRuns (List.enumFrom n l)).map (fun g => g.2)).flatten
        = List.range' n l.length ∧
    List.Chain' (fun g g' : Bool × List Nat => g.1 ≠ g'.1)
      (groupRuns (List.enumFrom n l)) ∧
    (∀ g ∈ groupRuns (List.enumFrom n l),
      g.2 ≠ [] ∧ g.2 = List.range' (g.2.headD 0) g.2.length) ∧
    (∀ g ∈ groupRuns (List.enumFrom n l), ∀ i ∈ g.2,
      n ≤ i ∧ l.getD (i - n) false = g.1) ∧
    List.Chain' gapR
      ((groupRuns (List.enumFrom n l)).filter (fun g => g.1 == true)) := by
  induction l with
  | nil =>
    intro n
    refine ⟨?_, ?_, ?_, ?_, ?_⟩ <;>
      simp [List.enumFrom_nil, groupRuns, List.range'_zero]
  | cons b t ih =>
    intro n
    obtain ⟨ih1, ih2, ih3, ih4, ih5⟩ := ih (n + 1)
    rcases hG : groupRuns (List.enumFrom (n + 1) t) with _ | ⟨⟨b', ks⟩, gs⟩
    · rw [hG] at ih1
      have ht : t.length = 0 := by
        rw [List.map_nil, List.flatten_nil] at ih1
        exact List.range'_eq_nil.mp ih1.symm
      have hg : groupRuns (List.enumFrom n (b :: t)) = [(b, [n])] := by
        rw [List.enumFrom_cons, groupRuns_cons, hG]
      refine ⟨?_, ?_, ?_, ?_, ?_⟩
      · rw [hg, List.length_cons, ht]
        simp [List.range'_one]
      · rw [hg]; exact List.chain'_singleton _
      · rw [hg]
        intro g hgm
        have hge : g = (b, [n]) := List.mem_singleton.mp hgm
        subst hge
        exact ⟨List.cons_ne_nil n [], by simp [List.range'_one]⟩
      · rw [hg]
        intro g hgm i him
        have hge : g = (b, [n]) := List.mem_singleton.mp hgm
        subst hge
        have hin : i = n := by simpa using him
        subst hin
        exact ⟨le_refl _, by simp⟩
      · rw [hg]
        exact chain'_of_len_le_one _ _ (le_trans (List.length_filter_le _ _) (by simp))
    · rw [hG] at ih1 ih2 ih3 ih4 ih5
      have hks_ne : ks ≠ [] := (ih3 (b', ks) (List.mem_cons_self _ _)).1
      have hks_contig : ks = List.range' (ks.headD 0) ks.length :=
        (ih3 (b', ks) (List.mem_cons_self _ _)).2
      have hflat : ks ++ ((gs.map (fun g => g.2)).flatten)
          = List.range' (n + 1) t.length := by
        rw [List.map_cons, List.flatten_cons] at ih1
        exact ih1
      have hlen : ks.length + ((gs.map (fun g => g.2)).flatten).length
          = t.length := by
        have hc := congrArg List.length hflat
        rw [List.length_append, List.length_range'] at hc
        exact hc
      have hkpos : 1 ≤ ks.length := List.length_pos.mpr hks_ne
      have htlen : 1 ≤ t.length := by omega
      have hk0 : ks.headD 0 = n + 1 := by
        obtain ⟨u, hu⟩ := Nat.exists_eq_add_of_le htlen
        obtain ⟨k0, ks', hks_eq⟩ := List.exists_cons_of_ne_nil hks_ne
        have h0 := congrArg (fun L => L.headD 0) hflat
        dsimp only at h0
        rw [hks_eq, List.cons_append] at h0
        rw [hu, add_comm 1 u, List.range'_succ] at h0
        simp only [List.headD_cons] at h0
        rw [hks_eq, List.headD_cons]
        exact h0
      have hks_range : ks = List.range' (n + 1) ks.length := by
        rw [← hk0]; exact hks_contig
      have hkle : ks.length ≤ t.length := by omega
      have hF : (gs.map (fun g => g.2)).flatten
          = List.range' (n + 1 + ks.length) (t.length - ks.length) := by
        apply @List.append_cancel_left _ ks _ _
        rw [hflat]
        have hr := List.range'_append (n + 1) ks.length (t.length - ks.length) 1
        rw [one_mul, Nat.sub_add_cancel hkle] at hr
        conv_lhs => rw [← hr]
        rw [← hks_range]
      have hg : groupRuns (List.enumFrom n (b :: t)) =
          if b = b' then (b, n :: ks) :: gs
          else (b, [n]) :: (b', ks) :: gs := by
        rw [List.enumFrom_cons, groupRuns_cons, hG]
      by_cases hbb : b = b'
      · subst hbb
        rw [if_pos rfl] at hg
        refine ⟨?_, ?_, ?_, ?_, ?_⟩
        · rw [hg, List.map_cons, List.flatten_cons, List.cons_append, hflat,
            List.length_cons, List.range'_succ]
        · rw [hg]
          obtain ⟨hlink, htail⟩ := List.chain'_cons'.mp ih2
          exact List.chain'_cons'.mpr ⟨fun y hy => hlink y hy, htail⟩
        · rw [hg]
          intro g hgm
          rcases List.mem_cons.mp hgm with hge | hgm'
          · subst hge
            refine ⟨List.cons_ne_nil n ks, ?_⟩
            simp only [List.headD_cons, List.length_cons]
            rw [List.range'_succ, ← hks_range]
          · exact ih3 g (List.mem_cons_of_mem _ hgm')
        · rw [hg]
          intro g hgm i him
          rcases List.mem_cons.mp hgm with hge | hgm'
          · subst hge
            rcases List.mem_cons.mp him with hin | him'
            · subst hin
              exact ⟨le_refl i, by simp⟩
            · have h4 := ih4 (b, ks) (List.mem_cons_self _ _) i him'
              refine ⟨by omega, ?_⟩
              have hi : i - n = (i - (n + 1)) + 1 := by omega
              rw [hi, List.getD_cons_succ]
              exact h4.2
          · have h4 := ih4 g (List.mem_cons_of_mem _ hgm') i him
            refine ⟨by omega, ?_⟩
            have hi : i - n = (i - (n + 1)) + 1 := by omega
            rw [hi, List.getD_cons_succ]
            exact h4.2
        · rw [hg]
          cases b with
          | false =>
            rw [List.filter_cons_of_neg (by simp)] at ih5 ⊢
            exact ih5
          | true =>
            rw [List.filter_cons_of_pos (by simp)] at ih5 ⊢
            obtain ⟨hlink, htail⟩ := List.chain'_cons'.mp ih5
            refine List.chain'_cons'.mpr ⟨?_, htail⟩
            intro y hy
            have hgap := hlink y hy
            simp only [gapR, List.headD_cons, List.length_cons] at hgap ⊢
            rw [hk0] at hgap
            omega
      · rw [if_neg hbb] at hg
        refine ⟨?_, ?_, ?_, ?_, ?_⟩
        · rw [hg, List.map_cons, List.map_cons, List.flatten_cons,
            List.flatten_cons, List.singleton_append, hflat, List.length_cons,
            List.range'_succ]
        · rw [hg]
          refine List.chain'_cons'.mpr ⟨?_, ih2⟩
          intro y hy
          have hye : (b', ks) = y := by simpa using hy
          subst hye
          exact hbb
        · rw [hg]
          intro g hgm
          rcases List.mem_cons.mp hgm with hge | hgm'
          · subst hge
            exact ⟨List.cons_ne_nil n [], by simp [List.range'_one]⟩
          · exact ih3 g hgm'
        · rw [hg]
          intro g hgm i him
          rcases List.mem_cons.mp hgm with hge | hgm'
          · subst hge
            have hin : i = n := by simpa using him
            subst hin
            exact ⟨le_refl i, by simp⟩
          · have h4 := ih4 g hgm' i him
            refine ⟨by omega, ?_⟩
            have hi : i - n = (i - (n + 1)) + 1 := by omega
            rw [hi, List.getD_cons_succ]
            exact h4.2
        · rw [hg]
          cases b with
          | false =>
            rw [List.filter_cons_of_neg (by simp)]
            exact ih5
          | true =>
            have hb' : b' = false := by
              cases b' with
              | false => rfl
              | true => exact absurd rfl hbb
            subst hb'
            rw [List.filter_cons_of_pos (by simp),
              List.filter_cons_of_neg (by simp)]
            rw [List.filter_cons_of_neg (by simp)] at ih5
            refine List.chain'_cons'.mpr ⟨?_, ih5⟩
            intro y hy
            have hyf : y ∈ List.filter (fun g => g.1 == true) gs :=
              List.mem_of_mem_head? hy
            have hyg : y ∈ gs := List.mem_of_mem_filter hyf
            have hyne : y.2 ≠ [] := (ih3 y (List.mem_cons_of_mem _ hyg)).1
            have hymem : y.2.headD 0 ∈ (gs.map (fun g => g.2)).flatten :=
              List.mem_flatten.mpr ⟨y.2, List.mem_map_of_mem _ hyg,
                headD_mem y.2 0 hyne⟩
            rw [hF] at hymem
            have hge := (List.mem_range'_1.mp hymem).1
            simp only [gapR, List.headD_cons, List.length_cons,
              List.length_nil]
            omega

/-- The interval-extraction tail of cleanup as a function of the dense
status array. -/
def runsOut (A : List Bool) : List Markup :=
  (((groupRuns (List.enumFrom 0 A)).filter (fun g => g.1 == true)).map
      (fun g => g.2)).map
    (fun run => (run.headD 0, run.getLastD 0 + 1, true))

lemma cleanup_cons (m : Markup) (ms : List Markup) :
    cleanup (m :: ms) =
      runsOut ((m :: ms).foldl applyMarkup
        (List.replicate (maxStop (m :: ms) - 1) false)) := rfl

lemma run_end_eq (g : Bool × List Nat) (hne : g.2 ≠ [])
    (hcontig : g.2 = List.range' (g.2.headD 0) g.2.length) :
    g.2.getLastD 0 + 1 = g.2.headD 0 + g.2.length := by
  have hk : 1 ≤ g.2.length := List.length_pos.mpr hne
  conv_lhs => rw [hcontig]
  rw [range'_getLastD _ _ _ hk]
  omega

lemma memSel_runsOut (A : List Bool) (p : Nat) :
    memSel (runsOut A) p ↔ A.getD p false = true := by
  obtain ⟨P1, _, P3, P4, _⟩ := groupRuns_spec A 0
  constructor
  · rintro ⟨mk, hmk, hp1, hp2⟩
    obtain ⟨run, hrun, hfk⟩ := List.mem_map.mp hmk
    obtain ⟨g, hgf, hgrun⟩ := List.mem_map.mp hrun
    have hgG := List.mem_of_mem_filter hgf
    obtain ⟨hgne, hgcontig⟩ := P3 g hgG
    have hend := run_end_eq g hgne hgcontig
    subst hgrun
    subst hfk
    dsimp only at hp1 hp2
    have hpmem : p ∈ g.2 := by
      conv_lhs => rw [hgcontig]
      rw [List.mem_range'_1]
      omega
    have h4 := (P4 g hgG p hpmem).2
    rw [Nat.sub_zero] at h4
    rw [h4]
    simpa using (List.mem_filter.mp hgf).2
  · intro hgd
    have hplen : p < A.length := by
      by_contra hnp
      rw [List.getD_eq_getElem?_getD, List.getElem?_eq_none (by omega)] at hgd
      simp at hgd
    have hpr : p ∈ List.range' 0 A.length :=
      List.mem_range'_1.mpr ⟨Nat.zero_le p, by omega⟩
    rw [← P1] at hpr
    obtain ⟨L, hL, hpL⟩ := List.mem_flatten.mp hpr
    obtain ⟨g, hgG, hgL⟩ := List.mem_map.mp hL
    have hpg : p ∈ g.2 := by rw [hgL]; exact hpL
    have hg1 : g.1 = true := by
      have h4 := (P4 g hgG p hpg).2
      rw [Nat.sub_zero, hgd] at h4
      exact h4.symm
    have hgf : g ∈ (groupRuns (List.enumFrom 0 A)).filter
        (fun g => g.1 == true) :=
      List.mem_filter.mpr ⟨hgG, by rw [hg1]; rfl⟩
    obtain ⟨hgne, hgcontig⟩ := P3 g hgG
    have hend := run_end_eq g hgne hgcontig
    have hpr2 : g.2.headD 0 ≤ p ∧ p < g.2.headD 0 + g.2.length := by
      rw [hgcontig] at hpg
      exact List.mem_range'_1.mp hpg
    refine ⟨(g.2.headD 0, g.2.getLastD 0 + 1, true), ?_, ?_, ?_⟩
    · exact List.mem_map.mpr ⟨g.2, List.mem_map.mpr ⟨g, hgf, rfl⟩, rfl⟩
    · exact hpr2.1
    · dsimp only
      omega

instance : IsTrans (Bool × List Nat) gapR :=
  ⟨fun a b c hab hbc => by simp only [gapR] at hab hbc ⊢; omega⟩

lemma normalizedL_runsOut (A : List Bool) : NormalizedL (runsOut A) := by
  obtain ⟨_, _, P3, _, P5⟩ := groupRuns_spec A 0
  constructor
  · intro mk hmk
    obtain ⟨run, hrun, hfk⟩ := List.mem_map.mp hmk
    obtain ⟨g, hgf, hgrun⟩ := List.mem_map.mp hrun
    obtain ⟨hgne, hgcontig⟩ := P3 g (List.mem_of_mem_filter hgf)
    have hend := run_end_eq g hgne hgcontig
    have hk := List.length_pos.mpr hgne
    subst hgrun
    subst hfk
    refine ⟨?_, rfl⟩
    dsimp only
    omega
  · have hpw : List.Pairwise gapR
        ((groupRuns (List.enumFrom 0 A)).filter (fun g => g.1 == true)) :=
      List.chain'_iff_pairwise.mp P5
    simp only [runsOut, List.map_map]
    refine List.pairwise_map.mpr ?_
    refine hpw.imp_of_mem ?_
    intro a b ha hb hab
    obtain ⟨hane, hacontig⟩ := P3 a (List.mem_of_mem_filter ha)
    have hend := run_end_eq a hane hacontig
    simp only [gapR] at hab
    dsimp only [Function.comp]
    omega

/-- Membership characterization of cleanup: a position lies in some emitted
interval exactly when the last covering record selected it. -/
lemma memSel_cleanup (ms : List Markup) (p : Nat) :
    memSel (cleanup ms) p ↔ lastStatus ms p = true := by
  cases ms with
  | nil => simp [cleanup, memSel, lastStatus]
  | cons m ms' =>
    rw [cleanup_cons, memSel_runsOut, cleanup_ann_getD]

/-- The output of cleanup is always in normal form. -/
lemma normalizedL_cleanup (ms : List Markup) : NormalizedL (cleanup ms) := by
  cases ms with
  | nil =>
    exact ⟨fun m hm => absurd hm (List.not_mem_nil m), List.Pairwise.nil⟩
  | cons m ms' =>
    rw [cleanup_cons]
    exact normalizedL_runsOut _

lemma foldl_status_or (p : Nat) :
    ∀ (xs : List Markup) (acc : Bool), (∀ m ∈ xs, m.2.2 = true) →
      xs.foldl (fun acc m => if m.1 ≤ p ∧ p < m.2.1 then m.2.2 else acc) acc
        = (acc || decide (memSel xs p))
  | [], acc, _ => by simp [memSel]
  | m :: xs, acc, h => by
    rw [List.foldl_cons,
      foldl_status_or p xs _ (fun m' hm' => h m' (List.mem_cons_of_mem _ hm'))]
    by_cases hc : m.1 ≤ p ∧ p < m.2.1
    · rw [if_pos hc, h m (List.mem_cons_self _ _)]
      have hms : memSel (m :: xs) p := ⟨m, List.mem_cons_self _ _, hc⟩
      simp [hms]
    · rw [if_neg hc]
      have hiff : memSel (m :: xs) p ↔ memSel xs p := by
        constructor
        · rintro ⟨m', hm', hc'⟩
          rcases List.mem_cons.mp hm' with hme | h'
          · exact absurd (hme ▸ hc') hc
          · exact ⟨m', h', hc'⟩
        · rintro ⟨m', hm', hc'⟩
          exact ⟨m', List.mem_cons_of_mem _ hm', hc'⟩
      rw [decide_eq_decide.mpr hiff]

/-- On an all-SELECTED list, the last covering status is true exactly at
positions belonging to some interval. -/
lemma lastStatus_all_true (xs : List Markup) (h : ∀ m ∈ xs, m.2.2 = true)
    (p : Nat) : lastStatus xs p = true ↔ memSel xs p := by
  rw [lastStatus, foldl_status_or p xs false h, Bool.false_or]
  simp [decide_eq_true_eq]

/-- A normal form is uniquely determined by its set of member positions. -/
lemma normalized_ext : ∀ (xs ys : List Markup), NormalizedL xs →
    NormalizedL ys → (∀ p, memSel xs p ↔ memSel ys p) → xs = ys
  | [], [], _, _, _ => rfl
  | [], y :: ys', _, hy, hmem => by
    exfalso
    have hv := (hy.1 y (List.mem_cons_self _ _)).1
    have hm : memSel (y :: ys') y.1 := ⟨y, List.mem_cons_self _ _, le_refl _, hv⟩
    have := (hmem y.1).mpr hm
    simp [memSel] at this
  | x :: xs, [], hx, _, hmem => by
    exfalso
    have hv := (hx.1 x (List.mem_cons_self _ _)).1
    have hm : memSel (x :: xs) x.1 := ⟨x, List.mem_cons_self _ _, le_refl _, hv⟩
    have := (hmem x.1).mp hm
    simp [memSel] at this
  | x :: xs, y :: ys', hx, hy, hmem => by
    have hvx := (hx.1 x (List.mem_cons_self _ _)).1
    have hvy := (hy.1 y (List.mem_cons_self _ _)).1
    have hstx := (hx.1 x (List.mem_cons_self _ _)).2
    have hsty := (hy.1 y (List.mem_cons_self _ _)).2
    have hgapx : ∀ m ∈ xs, x.2.1 < m.1 := (List.pairwise_cons.mp hx.2).1
    have hgapy : ∀ m ∈ ys', y.2.1 < m.1 := (List.pairwise_cons.mp hy.2).1
    have hminx : ∀ p, memSel (x :: xs) p → x.1 ≤ p := by
      rintro p ⟨m, hm, hc⟩
      rcases List.mem_cons.mp hm with hme | h'
      · subst hme; exact hc.1
      · have := hgapx m h'
        omega
    have hminy : ∀ p, memSel (y :: ys') p → y.1 ≤ p := by
      rintro p ⟨m, hm, hc⟩
      rcases List.mem_cons.mp hm with hme | h'
      · subst hme; exact hc.1
      · have := hgapy m h'
        omega
    have hnex : ¬ memSel (x :: xs) x.2.1 := by
      rintro ⟨m, hm, hc⟩
      rcases List.mem_cons.mp hm with hme | h'
      · subst hme; omega
      · have := hgapx m h'
        omega
    have hney : ¬ memSel (y :: ys') y.2.1 := by
      rintro ⟨m, hm, hc⟩
      rcases List.mem_cons.mp hm with hme | h'
      · subst hme; omega
      · have := hgapy m h'
        omega
    have hs : x.1 = y.1 := by
      have h1 := hminy x.1 ((hmem x.1).mp ⟨x, List.mem_cons_self _ _, le_refl _, hvx⟩)
      have h2 := hminx y.1 ((hmem y.1).mpr ⟨y, List.mem_cons_self _ _, le_refl _, hvy⟩)
      omega
    have he : x.2.1 = y.2.1 := by
      by_contra hne
      rcases Nat.lt_or_ge x.2.1 y.2.1 with hlt | hge
      · exact hnex ((hmem x.2.1).mpr ⟨y, List.mem_cons_self _ _, by omega, hlt⟩)
      · have hlt : y.2.1 < x.2.1 := by omega
        exact hney ((hmem y.2.1).mp ⟨x, List.mem_cons_self _ _, by omega, hlt⟩)
    have hxtail : NormalizedL xs :=
      ⟨fun m hm => hx.1 m (List.mem_cons_of_mem _ hm),
        (List.pairwise_cons.mp hx.2).2⟩
    have hytail : NormalizedL ys' :=
      ⟨fun m hm => hy.1 m (List.mem_cons_of_mem _ hm),
        (List.pairwise_cons.mp hy.2).2⟩
    have htmem : ∀ p, memSel xs p ↔ memSel ys' p := by
      intro p
      constructor
      · rintro ⟨m, hm, hc⟩
        have hpx : x.2.1 < p := by
          have := hgapx m hm
          omega
        have hfull : memSel (y :: ys') p :=
          (hmem p).mp ⟨m, List.mem_cons_of_mem _ hm, hc⟩
        rcases hfull with ⟨m', hm', hc'⟩
        rcases List.mem_cons.mp hm' with hme | h'
        · exfalso
          subst hme
          omega
        · exact ⟨m', h', hc'⟩
      · rintro ⟨m, hm, hc⟩
        have hpy : y.2.1 < p := by
          have := hgapy m hm
          omega
        have hfull : memSel (x :: xs) p :=
          (hmem p).mpr ⟨m, List.mem_cons_of_mem _ hm, hc⟩
        rcases hfull with ⟨m', hm', hc'⟩
        rcases List.mem_cons.mp hm' with hme | h'
        · exfalso
          subst hme
          omega
        · exact ⟨m', h', hc'⟩
    have htails : xs = ys' := normalized_ext xs ys' hxtail hytail htmem
    have hheads : x = y :=
      Prod.ext hs (Prod.ext he (hstx.trans hsty.symm))
    rw [hheads, htails]

/-- cleanup is the identity on lists already in normal form. -/
lemma cleanup_fix (xs : List Markup) (h : NormalizedL xs) : cleanup xs = xs :=
  normalized_ext (cleanup xs) xs (normalizedL_cleanup xs) h
    (fun p => (memSel_cleanup xs p).trans
      (lastStatus_all_true xs (fun m hm => (h.1 m hm).2) p))

/-- cleanup is idempotent. -/
lemma cleanup_idem (ms : List Markup) : cleanup (cleanup ms) = cleanup ms :=
  cleanup_fix _ (normalizedL_cleanup ms)

lemma lastStatus_insert_invalid (l1 l2 : List Markup) (r : Markup)
    (hr : r.2.1 ≤ r.1) (p : Nat) :
    lastStatus (l1 ++ r :: l2) p = lastStatus (l1 ++ l2) p := by
  rw [lastStatus, lastStatus, List.foldl_append, List.foldl_append,
    List.foldl_cons, if_neg (by omega)]

/-- Inserting a record with start >= stop anywhere does not change the
normalized output. -/
lemma cleanup_insert_invalid (l1 l2 : List Markup) (r : Markup)
    (hr : r.2.1 ≤ r.1) : cleanup (l1 ++ r :: l2) = cleanup (l1 ++ l2) :=
  normalized_ext _ _ (normalizedL_cleanup _) (normalizedL_cleanup _)
    (fun p => (memSel_cleanup _ p).trans
      (by rw [lastStatus_insert_invalid l1 l2 r hr p]
          exact (memSel_cleanup _ p).symm))

/-- A frame (sample): immutable text plus the per-sample edit ledger, as in
the checkpoint document. -/
structure Frame where
  text : String
  anno : List Markup
deriving DecidableEq

/-- In-memory checkpoint state: the data dict after a successful load, with
its two required top-level fields. The head is an Int because any integer
can be stored in the document; nothing validates it on load. -/
structure Checkpoint where
  head : Int
  frames : List Frame
deriving DecidableEq

/-- Errors surfaced by the session layer: RuntimeError("Bad input") from
Checkpoint.__init__, ValueError from the head setter, IndexError from
indexing frames with an out-of-range head, and OSError/IOError from the
file write in save. -/
inductive Err where
  | malformed
  | outOfRange
  | indexError
  | ioError
deriving DecidableEq

/-- Python list indexing l[i]: negative indices count from the end, indices
out of range raise IndexError (modeled as none). -/
def pyIndex (n : Nat) (i : Int) : Option Nat :=
  if 0 ≤ i ∧ i < (n : Int) then some i.toNat
  else if -(n : Int) ≤ i ∧ i < 0 then some (i + n).toNat
  else none

/-- Index of the current head frame within frames (Python indexing). -/
def Checkpoint.frameIdx (c : Checkpoint) : Option Nat :=
  pyIndex c.frames.length c.head

/-- self.frame = self.data["frames"][self.head]. -/
def Checkpoint.frame (c : Checkpoint) : Option Frame :=
  c.frameIdx.bind (fun i => c.frames.get? i)

/-- self.ftext: the head frame's text. -/
def Checkpoint.ftext (c : Checkpoint) : Option String :=
  c.frame.map Frame.text

/-- self.fanno: the head frame's annotation ledger. -/
def Checkpoint.fanno (c : Checkpoint) : Option (List Markup) :=
  c.frame.map Frame.anno

/-- Replace the anno of frame i (identity when i is out of range, which the
session never does on its own). -/
def setAnnoAt (frames : List Frame) (i : Nat) (v : List Markup) : List Frame :=
  match frames.get? i with
  | some f => frames.set i { f with anno := v }
  | none => frames

/-- The fanno setter: self.frame["anno"] = value, at the current head. -/
def Checkpoint.setFanno (c : Checkpoint) (v : List Markup) : Option Checkpoint :=
  c.frameIdx.map (fun i => { c with frames := setAnnoAt c.frames i v })

/-- The head setter: validate the target, normalize the frame being left,
then move the head. The returned pair is the checkpoint state after the
call together with the outcome; on an error the state is the original one,
because Python raises before mutating anything. -/
def Checkpoint.setHead (c : Checkpoint) (pos : Int) :
    Checkpoint × Except Err Unit :=
  if ¬(0 ≤ pos ∧ pos < (c.frames.length : Int)) then (c, .error .outOfRange)
  else
    match c.fanno with
    | none => (c, .error .indexError)
    | some a =>
      match c.setFanno (cleanup a) with
      | none => (c, .error .indexError)
      | some c' => ({ c' with head := pos }, .ok ())

/-- Checkpoint.save: normalize the current frame first, then attempt the
file write; writeOk tells whether open/json.dump succeeds. The
normalization mutation persists even when the write then fails. -/
def Checkpoint.save (c : Checkpoint) (writeOk : Bool) :
    Checkpoint × Except Err Unit :=
  match c.fanno with
  | none => (c, .error .indexError)
  | some a =>
    match c.setFanno (cleanup a) with
    | none => (c, .error .indexError)
    | some c' => (c', if writeOk then .ok () else .error .ioError)

/-- self.isfinal. -/
def Checkpoint.isfinal (c : Checkpoint) : Bool :=
  c.head == (c.frames.length : Int) - 1

/-- self.isfirst. -/
def Checkpoint.isfirst (c : Checkpoint) : Bool :=
  c.head == 0

/-- AnnotationApp.next: silent no-op at the last frame, otherwise move the
head forward through the head setter (putframe and update_status only read
the checkpoint). -/
def appNext (c : Checkpoint) : Checkpoint × Except Err Unit :=
  if c.isfinal then (c, .ok ()) else c.setHead (c.head + 1)

/-- AnnotationApp.prev: symmetric to next. -/
def appPrev (c : Checkpoint) : Checkpoint × Except Err Unit :=
  if c.isfirst then (c, .ok ()) else c.setHead (c.head - 1)

/-- AnnotationApp.add/remove at the core boundary: append one markup record
to the current frame's edit ledger. -/
def appRecord (c : Checkpoint) (start stop : Nat) (status : Bool) :
    Checkpoint :=
  match c.fanno with
  | none => c
  | some a => (c.setFanno (a ++ [(start, stop, status)])).getD c

/-- A parsed checkpoint document: which of the two required top-level
fields are present, and their values; none at the outer level stands for
input that json.load fails to parse. -/
structure RawDoc where
  head : Option Int
  frames : Option (List Frame)
deriving DecidableEq

/-- Checkpoint.__init__: RuntimeError when parsing fails or a required
top-level field is missing; no validation of the head value and no check
that frames is nonempty. -/
def checkpointInit (doc : Option RawDoc) : Except Err Checkpoint :=
  match doc with
  | none => .error .malformed
  | some d =>
    match d.head, d.frames with
    | some h, some fs => .ok { head := h, frames := fs }
    | _, _ => .error .malformed

/-- Outcome of AnnotationApp.open: a RuntimeError propagating out of
Checkpoint.__init__, the "file is empty" status message, or a successful
activation of the new checkpoint. -/
inductive OpenOutcome where
  | failed
  | emptyFile
  | opened
deriving DecidableEq

/-- AnnotationApp.open: build the checkpoint, show a status message and
keep the old session when it has no frames, otherwise install the new
checkpoint as the active session. -/
def appOpen (prev : Option Checkpoint) (doc : Option RawDoc) :
    Option Checkpoint × OpenOutcome :=
  match checkpointInit doc with
  | .error _ => (prev, .failed)
  | .ok c =>
    if c.frames.length = 0 then (prev, .emptyFile)
    else (some c, .opened)

/-- The cursor-range invariant of the spec: 0 <= cursor < len(samples). -/
def InvC (c : Checkpoint) : Prop :=
  0 ≤ c.head ∧ c.head < (c.frames.length : Int)

instance (c : Checkpoint) : Decidable (InvC c) := by
  unfold InvC; infer_instance

/-- The state c2 is c with the cursor moved to pos and exactly the frame
being left replaced by its normalized form: texts everywhere and every
other frame are untouched. -/
def movedTo (c c2 : Checkpoint) (pos : Int) : Prop :=
  c2.head = pos ∧
  (∀ i, i ≠ c.head.toNat → c2.frames.get? i = c.frames.get? i) ∧
  (c2.frames.get? c.head.toNat).map Frame.anno
    = (c.frames.get? c.head.toNat).map (fun f => cleanup f.anno) ∧
  (c2.frames.get? c.head.toNat).map Frame.text
    = (c.frames.get? c.head.toNat).map Frame.text

/-- Texts of all frames agree between two states. -/
def textPreserved (c c2 : Checkpoint) : Prop :=
  ∀ i, (c2.frames.get? i).map Frame.text = (c.frames.get? i).map Frame.text

/-- All frames other than the current one agree between two states. -/
def isolatedAt (c c2 : Checkpoint) : Prop :=
  ∀ i, i ≠ c.head.toNat → c2.frames.get? i = c.frames.get? i

lemma frameIdx_of_inv (c : Checkpoint) (h : InvC c) :
    c.frameIdx = some c.head.toNat := by
  rw [Checkpoint.frameIdx, pyIndex, if_pos ⟨h.1, h.2⟩]

lemma toNat_lt_of_inv (c : Checkpoint) (h : InvC c) :
    c.head.toNat < c.frames.length := by
  have h1 := h.1
  have h2 := h.2
  omega

lemma lt_of_get?_eq_some (fs : List Frame) (i : Nat) (f : Frame)
    (hf : fs.get? i = some f) : i < fs.length := by
  by_contra hn
  rw [List.get?_eq_getElem?, List.getElem?_eq_none (by omega)] at hf
  cases hf

lemma exists_frame_of_inv (c : Checkpoint) (h : InvC c) :
    ∃ f, c.frames.get? c.head.toNat = some f :=
  ⟨c.frames.get ⟨c.head.toNat, toNat_lt_of_inv c h⟩,
    List.get?_eq_get (toNat_lt_of_inv c h)⟩

lemma fanno_of_inv (c : Checkpoint) (h : InvC c) (f : Frame)
    (hf : c.frames.get? c.head.toNat = some f) : c.fanno = some f.anno := by
  simp only [Checkpoint.fanno, Checkpoint.frame, frameIdx_of_inv c h,
    Option.some_bind, hf, Option.map_some']

lemma setFanno_of_inv (c : Checkpoint) (h : InvC c) (v : List Markup) :
    c.setFanno v =
      some { c with frames := setAnnoAt c.frames c.head.toNat v } := by
  simp [Checkpoint.setFanno, frameIdx_of_inv c h]

lemma setAnnoAt_of_some (fs : List Frame) (i : Nat) (v : List Markup)
    (f : Frame) (hf : fs.get? i = some f) :
    setAnnoAt fs i v = fs.set i { f with anno := v } := by
  rw [setAnnoAt, hf]

/-- Canonical behavior of the head setter on a state satisfying the
invariant. -/
lemma setHead_eq_of_inv (c : Checkpoint) (pos : Int) (h : InvC c) (f : Frame)
    (hf : c.frames.get? c.head.toNat = some f) :
    c.setHead pos =
      if 0 ≤ pos ∧ pos < (c.frames.length : Int) then
        ({ head := pos,
           frames := c.frames.set c.head.toNat
             { f with anno := cleanup f.anno } }, .ok ())
      else (c, .error .outOfRange) := by
  by_cases hp : 0 ≤ pos ∧ pos < (c.frames.length : Int)
  · rw [if_pos hp]
    simp [Checkpoint.setHead, not_not_intro hp, fanno_of_inv c h f hf,
      setFanno_of_inv c h, setAnnoAt_of_some c.frames _ _ f hf, hp]
  · rw [if_neg hp]
    simp [Checkpoint.setHead, hp]

/-- Canonical behavior of Checkpoint.save on a state satisfying the
invariant: the current frame is normalized whether or not the write
succeeds. -/
lemma save_eq_of_inv (c : Checkpoint) (w : Bool) (h : InvC c) (f : Frame)
    (hf : c.frames.get? c.head.toNat = some f) :
    c.save w =
      ({ c with frames := (c.frames.set c.head.toNat
          { f with anno := cleanup f.anno }) },
        if w then .ok () else .error .ioError) := by
  simp [Checkpoint.save, fanno_of_inv c h f hf, setFanno_of_inv c h,
    setAnnoAt_of_some c.frames _ _ f hf]

/-- Canonical behavior of record on a state satisfying the invariant. -/
lemma record_eq_of_inv (c : Checkpoint) (s e : Nat) (st : Bool) (h : InvC c)
    (f : Frame) (hf : c.frames.get? c.head.toNat = some f) :
    appRecord c s e st =
      { c with frames := (c.frames.set c.head.toNat
          { f with anno := f.anno ++ [(s, e, st)] }) } := by
  simp [appRecord, fanno_of_inv c h f hf, setFanno_of_inv c h,
    setAnnoAt_of_some c.frames _ _ f hf]

lemma get?_set_self (fs : List Frame) (i : Nat) (g : Frame)
    (hlt : i < fs.length) : (fs.set i g).get? i = some g := by
  rw [List.get?_eq_getElem?, List.getElem?_set, if_pos rfl, if_pos hlt]

lemma get?_set_other (fs : List Frame) (i j : Nat) (g : Frame) (hij : i ≠ j) :
    (fs.set i g).get? j = fs.get? j := by
  rw [List.get?_eq_getElem?, List.get?_eq_getElem?, List.getElem?_set,
    if_neg hij]

lemma movedTo_set (c : Checkpoint) (pos : Int) (f : Frame)
    (hf : c.frames.get? c.head.toNat = some f) :
    movedTo c
      { head := pos,
        frames := c.frames.set c.head.toNat
          { f with anno := cleanup f.anno } } pos := by
  have hlt := lt_of_get?_eq_some _ _ _ hf
  refine ⟨rfl, ?_, ?_, ?_⟩
  · intro i hi
    exact get?_set_other _ _ _ _ (fun hh => hi hh.symm)
  · rw [get?_set_self _ _ _ hlt, hf]
    rfl
  · rw [get?_set_self _ _ _ hlt, hf]
    rfl

lemma inv_setHead (c : Checkpoint) (pos : Int) (h : InvC c) :
    InvC (c.setHead pos).1 := by
  obtain ⟨f, hf⟩ := exists_frame_of_inv c h
  rw [setHead_eq_of_inv c pos h f hf]
  by_cases hp : 0 ≤ pos ∧ pos < (c.frames.length : Int)
  · rw [if_pos hp]
    exact ⟨hp.1, by simpa [List.length_set] using hp.2⟩
  · rw [if_neg hp]
    exact h

lemma inv_save (c : Checkpoint) (w : Bool) (h : InvC c) :
    InvC (c.save w).1 := by
  obtain ⟨f, hf⟩ := exists_frame_of_inv c h
  rw [save_eq_of_inv c w h f hf]
  exact ⟨h.1, by simpa [List.length_set] using h.2⟩

lemma inv_record (c : Checkpoint) (s e : Nat) (st : Bool) (h : InvC c) :
    InvC (appRecord c s e st) := by
  obtain ⟨f, hf⟩ := exists_frame_of_inv c h
  rw [record_eq_of_inv c s e st h f hf]
  exact ⟨h.1, by simpa [List.length_set] using h.2⟩

lemma inv_next (c : Checkpoint) (h : InvC c) : InvC (appNext c).1 := by
  rw [appNext]
  by_cases hfin : c.isfinal = true
  · rw [if_pos hfin]
    exact h
  · rw [if_neg hfin]
    exact inv_setHead c _ h

lemma inv_prev (c : Checkpoint) (h : InvC c) : InvC (appPrev c).1 := by
  rw [appPrev]
  by_cases hfir : c.isfirst = true
  · rw [if_pos hfir]
    exact h
  · rw [if_neg hfir]
    exact inv_setHead c _ h

lemma isfinal_false_range (c : Checkpoint) (h : InvC c)
    (hfin : c.isfinal = false) :
    0 ≤ c.head + 1 ∧ c.head + 1 < (c.frames.length : Int) := by
  have hne : ¬(c.head = (c.frames.length : Int) - 1) := by
    simpa [Checkpoint.isfinal] using hfin
  have h1 := h.1
  have h2 := h.2
  omega

lemma isfirst_false_range (c : Checkpoint) (h : InvC c)
    (hfir : c.isfirst = false) :
    0 ≤ c.head - 1 ∧ c.head - 1 < (c.frames.length : Int) := by
  have hne : ¬(c.head = 0) := by
    simpa [Checkpoint.isfirst] using hfir
  have h1 := h.1
  have h2 := h.2
  omega

lemma foldl_status_skip (p : Nat) :
    ∀ (ms : List Markup) (acc : Bool),
      (∀ m ∈ ms, ¬(m.1 ≤ p ∧ p < m.2.1)) →
      ms.foldl (fun acc m => if m.1 ≤ p ∧ p < m.2.1 then m.2.2 else acc) acc
        = acc
  | [], _, _ => rfl
  | m :: ms, acc, h => by
    rw [List.foldl_cons, if_neg (h m (List.mem_cons_self _ _))]
    exact foldl_status_skip p ms acc
      (fun m' hm' => h m' (List.mem_cons_of_mem _ hm'))

lemma lastStatus_none (ms : List Markup) (p : Nat)
    (h : ∀ m ∈ ms, ¬(m.1 ≤ p ∧ p < m.2.1)) : lastStatus ms p = false :=
  foldl_status_skip p ms false h

lemma isolation_refl (c : Checkpoint) : textPreserved c c ∧ isolatedAt c c :=
  ⟨fun _ => rfl, fun _ _ => rfl⟩

lemma shape_isolation (c : Checkpoint) (f g : Frame)
    (hf : c.frames.get? c.head.toNat = some f) (hg : g.text = f.text)
    (c2 : Checkpoint) (hc2 : c2.frames = c.frames.set c.head.toNat g) :
    textPreserved c c2 ∧ isolatedAt c c2 := by
  constructor
  · intro i
    by_cases hi : i = c.head.toNat
    · subst hi
      rw [hc2, get?_set_self _ _ _ (lt_of_get?_eq_some _ _ _ hf), hf,
        Option.map_some', Option.map_some', hg]
    · rw [hc2, get?_set_other _ _ _ _ (fun hh => hi hh.symm)]
  · intro i hi
    rw [hc2, get?_set_other _ _ _ _ (fun hh => hi hh.symm)]

/-- C1: last-write-wins semantics of normalization. A position lies inside
some interval returned by cleanup iff the last edit record whose range
covers it has status SELECTED; positions covered by no record are
DESELECTED (never emitted); cleanup of the empty ledger is the empty
sequence; and cleanup [(0,10,SELECTED), (3,6,DESELECTED)] =
[(0,3,SELECTED), (6,10,SELECTED)]. -/
theorem c1_last_write_wins :
    (∀ (ms : List Markup) (p : Nat), (∀ m ∈ ms, m.1 < m.2.1) →
      (memSel (cleanup ms) p ↔ lastStatus ms p = true)) ∧
    (∀ (ms : List Markup) (p : Nat),
      (∀ m ∈ ms, ¬(m.1 ≤ p ∧ p < m.2.1)) → ¬ memSel (cleanup ms) p) ∧
    cleanup [] = [] ∧
    cleanup [(0, 10, HIGH), (3, 6, LOW)] = [(0, 3, HIGH), (6, 10, HIGH)] := by
  refine ⟨fun ms p _ => memSel_cleanup ms p, ?_, rfl, by decide⟩
  intro ms p hnone hmem
  have h := (memSel_cleanup ms p).mp hmem
  rw [lastStatus_none ms p hnone] at h
  exact Bool.false_ne_true h

theorem c1_last_write_wins_witness :
    (∀ m ∈ ([(0, 10, HIGH), (3, 6, LOW)] : List Markup), m.1 < m.2.1) ∧
    (memSel (cleanup [(0, 10, HIGH), (3, 6, LOW)]) 7 ↔
      lastStatus [(0, 10, HIGH), (3, 6, LOW)] 7 = true) ∧
    ¬ memSel (cleanup [(2, 5, HIGH)]) 7 :=
  ⟨by decide, c1_last_write_wins.1 [(0, 10, HIGH), (3, 6, LOW)] 7 (by decide),
    c1_last_write_wins.2.1 [(2, 5, HIGH)] 7 (by decide)⟩

/-- C2: normalization is idempotent, and any list already in normal form
(disjoint, sorted, non-adjacent SELECTED intervals) is returned unchanged
when fed back into cleanup. -/
theorem c2_idempotent :
    (∀ ms : List Markup, cleanup (cleanup ms) = cleanup ms) ∧
    (∀ xs : List Markup, NormalizedL xs → cleanup xs = xs) :=
  ⟨cleanup_idem, cleanup_fix⟩

theorem c2_idempotent_witness :
    NormalizedL [(0, 3, HIGH), (5, 8, HIGH)] ∧
    cleanup [(0, 3, HIGH), (5, 8, HIGH)] = [(0, 3, HIGH), (5, 8, HIGH)] :=
  ⟨by decide, c2_idempotent.2 [(0, 3, HIGH), (5, 8, HIGH)] (by decide)⟩

/-- C3: the output of cleanup is always in normal form: every interval has
start < stop and status SELECTED, and the intervals are pairwise ordered
with the earlier interval ending strictly before the later one starts
(sorted, disjoint, non-adjacent). -/
theorem c3_normal_form :
    ∀ ms : List Markup, (∀ m ∈ ms, m.1 < m.2.1) →
      NormalizedL (cleanup ms) :=
  fun ms _ => normalizedL_cleanup ms

theorem c3_normal_form_witness :
    (∀ m ∈ ([(3, 9, HIGH), (0, 5, LOW)] : List Markup), m.1 < m.2.1) ∧
    NormalizedL (cleanup [(3, 9, HIGH), (0, 5, LOW)]) :=
  ⟨by decide, c3_normal_form [(3, 9, HIGH), (0, 5, LOW)] (by decide)⟩

/-- C9: a record with start >= stop, inserted anywhere in the ledger, does
not change the normalized output. -/
theorem c9_invalid_noop :
    ∀ (l1 l2 : List Markup) (r : Markup), r.2.1 ≤ r.1 →
      cleanup (l1 ++ r :: l2) = cleanup (l1 ++ l2) :=
  fun l1 l2 r hr => cleanup_insert_invalid l1 l2 r hr

theorem c9_invalid_noop_witness :
    ((5, 5, HIGH) : Markup).2.1 ≤ ((5, 5, HIGH) : Markup).1 ∧
    cleanup ([(0, 2, HIGH)] ++ (5, 5, HIGH) :: [(1, 3, LOW)])
      = cleanup ([(0, 2, HIGH)] ++ [(1, 3, LOW)]) :=
  ⟨by decide, c9_invalid_noop [(0, 2, HIGH)] [(1, 3, LOW)] (5, 5, HIGH)
    (by decide)⟩

/-- C4 counterexample: loading a checkpoint does not establish the cursor
invariant. A document with head = -1 and two frames is accepted by open
(outcome opened, the checkpoint is installed), yet 0 <= cursor fails on the
resulting session. -/
theorem c4_counterexample :
    appOpen none (some ⟨some (-1), some [⟨"a", []⟩, ⟨"b", []⟩]⟩)
      = (some ⟨-1, [⟨"a", []⟩, ⟨"b", []⟩]⟩, OpenOutcome.opened) ∧
    ¬ InvC ⟨-1, [⟨"a", []⟩, ⟨"b", []⟩]⟩ :=
  ⟨rfl, by decide⟩

/-- C4 amended: every operation (setCursor, advance, retreat, save, record)
preserves 0 <= cursor < len(samples), and open establishes it whenever the
stored head happens to be in range; load itself, however, performs no head
validation. -/
theorem c4_cursor_invariant :
    (∀ (c : Checkpoint) (pos : Int), InvC c → InvC (c.setHead pos).1) ∧
    (∀ c : Checkpoint, InvC c → InvC (appNext c).1) ∧
    (∀ c : Checkpoint, InvC c → InvC (appPrev c).1) ∧
    (∀ (c : Checkpoint) (w : Bool), InvC c → InvC (c.save w).1) ∧
    (∀ (c : Checkpoint) (s e : Nat) (st : Bool), InvC c →
      InvC (appRecord c s e st)) ∧
    (∀ (prev : Option Checkpoint) (h : Int) (fs : List Frame),
      0 ≤ h → h < (fs.length : Int) →
      appOpen prev (some ⟨some h, some fs⟩) = (some ⟨h, fs⟩, .opened) ∧
      InvC ⟨h, fs⟩) := by
  refine ⟨inv_setHead, inv_next, inv_prev, inv_save, inv_record, ?_⟩
  intro prev h fs h0 hlt
  have hne : fs.length ≠ 0 := by omega
  constructor
  · simp [appOpen, checkpointInit, hne]
  · exact ⟨h0, hlt⟩

theorem c4_cursor_invariant_witness :
    InvC ⟨0, [⟨"a", []⟩]⟩ ∧
    InvC ((⟨0, [⟨"a", []⟩]⟩ : Checkpoint).setHead 0).1 :=
  ⟨by decide, c4_cursor_invariant.1 ⟨0, [⟨"a", []⟩]⟩ 0 (by decide)⟩

/-- C5: open fails to install a session exactly when the document is
unparsable, head or frames is missing, or frames is empty (the
MalformedCheckpoint cases of the spec), and on each such failure the
pre-existing session is left untouched. -/
theorem c5_load_rejection :
    ∀ (prev : Option Checkpoint) (doc : Option RawDoc),
      ((appOpen prev doc).2 ≠ OpenOutcome.opened ↔
        (doc = none ∨ ∃ d, doc = some d ∧
          (d.head = none ∨ d.frames = none ∨ d.frames = some []))) ∧
      ((appOpen prev doc).2 ≠ OpenOutcome.opened →
        (appOpen prev doc).1 = prev) := by
  intro prev doc
  match doc with
  | none =>
    refine ⟨?_, ?_⟩
    · simp [appOpen, checkpointInit]
    · intro _
      rfl
  | some ⟨none, df⟩ =>
    refine ⟨?_, fun _ => rfl⟩
    simp [appOpen, checkpointInit]
  | some ⟨some hd, none⟩ =>
    refine ⟨?_, fun _ => rfl⟩
    simp [appOpen, checkpointInit]
  | some ⟨some hd, some fs⟩ =>
    by_cases hlen : fs.length = 0
    · have hfs : fs = [] := List.length_eq_zero.mp hlen
      subst hfs
      refine ⟨?_, fun _ => rfl⟩
      simp [appOpen, checkpointInit]
    · have hfs : fs ≠ [] := fun hh => hlen (by rw [hh]; rfl)
      refine ⟨?_, ?_⟩
      · simp only [appOpen, checkpointInit, hlen, if_false]
        constructor
        · intro hcon
          exact absurd rfl hcon
        · rintro (hcon | ⟨d, hd2, hcase⟩)
          · cases hcon
          · obtain rfl : d = ⟨some hd, some fs⟩ := by
              injection hd2 with hh
              exact hh.symm
            rcases hcase with hcon | hcon | hcon
            · cases hcon
            · cases hcon
            · injection hcon with hh
              exact absurd hh hfs
      · intro hcon
        exfalso
        apply hcon
        simp [appOpen, checkpointInit, hlen]

theorem c5_load_rejection_witness :
    (appOpen (some ⟨0, [⟨"a", []⟩]⟩) (some ⟨none, some [⟨"b", []⟩]⟩)).2
        ≠ OpenOutcome.opened ∧
    (appOpen (some ⟨0, [⟨"a", []⟩]⟩) (some ⟨none, some [⟨"b", []⟩]⟩)).1
      = some ⟨0, [⟨"a", []⟩]⟩ := by
  have h := c5_load_rejection (some ⟨0, [⟨"a", []⟩]⟩)
    (some ⟨none, some [⟨"b", []⟩]⟩)
  have hne := h.1.mpr (Or.inr ⟨⟨none, some [⟨"b", []⟩]⟩, rfl, Or.inl rfl⟩)
  exact ⟨hne, h.2 hne⟩

/-- C6 counterexample: a failed save does NOT leave the session exactly as
it was. Checkpoint.save normalizes the current frame before attempting the
write, so after a failing write the raw edit list [(0,10,SELECTED),
(3,6,DESELECTED)] has been replaced by its normalized form. -/
theorem c6_counterexample :
    ((⟨0, [⟨"t", [(0, 10, HIGH), (3, 6, LOW)]⟩]⟩ : Checkpoint).save false).2
        = Except.error Err.ioError ∧
    ((⟨0, [⟨"t", [(0, 10, HIGH), (3, 6, LOW)]⟩]⟩ : Checkpoint).save false).1
        ≠ ⟨0, [⟨"t", [(0, 10, HIGH), (3, 6, LOW)]⟩]⟩ :=
  ⟨rfl, by decide⟩

/-- C6 amended: when save fails with IOFailure, the cursor, every frame's
text and every other frame's edit sequence are exactly as before the call,
but the current frame's edit sequence has been replaced by its normalized
form (the write is attempted only after the in-place normalization). -/
theorem c6_save_failure_amended :
    ∀ c : Checkpoint, InvC c →
      (c.save false).2 = Except.error Err.ioError ∧
      movedTo c (c.save false).1 c.head := by
  intro c h
  obtain ⟨f, hf⟩ := exists_frame_of_inv c h
  rw [save_eq_of_inv c false h f hf]
  exact ⟨rfl, movedTo_set c c.head f hf⟩

theorem c6_save_failure_amended_witness :
    InvC ⟨0, [⟨"t", [(0, 10, HIGH)]⟩]⟩ ∧
    ((⟨0, [⟨"t", [(0, 10, HIGH)]⟩]⟩ : Checkpoint).save false).2
      = Except.error Err.ioError :=
  ⟨by decide,
    (c6_save_failure_amended ⟨0, [⟨"t", [(0, 10, HIGH)]⟩]⟩ (by decide)).1⟩

/-- C7: setCursor semantics. An out-of-range target fails with OutOfRange
and leaves the whole session unchanged; an in-range target normalizes the
frame being left (touching nothing else) and then sets the cursor. -/
theorem c7_set_cursor :
    ∀ (c : Checkpoint) (pos : Int), InvC c →
      (¬(0 ≤ pos ∧ pos < (c.frames.length : Int)) →
        c.setHead pos = (c, .error .outOfRange)) ∧
      ((0 ≤ pos ∧ pos < (c.frames.length : Int)) →
        (c.setHead pos).2 = .ok () ∧ movedTo c (c.setHead pos).1 pos) := by
  intro c pos h
  obtain ⟨f, hf⟩ := exists_frame_of_inv c h
  rw [setHead_eq_of_inv c pos h f hf]
  constructor
  · intro hp
    rw [if_neg hp]
  · intro hp
    rw [if_pos hp]
    exact ⟨rfl, movedTo_set c pos f hf⟩

theorem c7_set_cursor_witness :
    InvC ⟨0, [⟨"a", [(0, 2, HIGH)]⟩]⟩ ∧
    ((⟨0, [⟨"a", [(0, 2, HIGH)]⟩]⟩ : Checkpoint).setHead 5)
      = (⟨0, [⟨"a", [(0, 2, HIGH)]⟩]⟩, Except.error Err.outOfRange) :=
  ⟨by decide,
    (c7_set_cursor ⟨0, [⟨"a", [(0, 2, HIGH)]⟩]⟩ 5 (by decide)).1 (by decide)⟩

/-- C8: navigation boundaries with normalize-on-leave. advance is a strict
no-op at the last sample and otherwise normalizes the current frame and
increments the cursor; retreat is a strict no-op at the first sample and
otherwise normalizes the current frame and decrements the cursor. -/
theorem c8_navigation :
    ∀ c : Checkpoint, InvC c →
      (c.isfinal = true → appNext c = (c, .ok ())) ∧
      (c.isfinal = false → (appNext c).2 = .ok () ∧
        movedTo c (appNext c).1 (c.head + 1)) ∧
      (c.isfirst = true → appPrev c = (c, .ok ())) ∧
      (c.isfirst = false → (appPrev c).2 = .ok () ∧
        movedTo c (appPrev c).1 (c.head - 1)) := by
  intro c h
  obtain ⟨f, hf⟩ := exists_frame_of_inv c h
  refine ⟨?_, ?_, ?_, ?_⟩
  · intro hfin
    rw [appNext, if_pos hfin]
  · intro hfin
    rw [appNext, if_neg (by simp [hfin]),
      setHead_eq_of_inv c _ h f hf, if_pos (isfinal_false_range c h hfin)]
    exact ⟨rfl, movedTo_set c _ f hf⟩
  · intro hfir
    rw [appPrev, if_pos hfir]
  · intro hfir
    rw [appPrev, if_neg (by simp [hfir]),
      setHead_eq_of_inv c _ h f hf, if_pos (isfirst_false_range c h hfir)]
    exact ⟨rfl, movedTo_set c _ f hf⟩

theorem c8_navigation_witness :
    InvC ⟨2, [⟨"a", []⟩, ⟨"b", []⟩, ⟨"c", []⟩]⟩ ∧
    Checkpoint.isfinal ⟨2, [⟨"a", []⟩, ⟨"b", []⟩, ⟨"c", []⟩]⟩ = true ∧
    appNext ⟨2, [⟨"a", []⟩, ⟨"b", []⟩, ⟨"c", []⟩]⟩
      = (⟨2, [⟨"a", []⟩, ⟨"b", []⟩, ⟨"c", []⟩]⟩, Except.ok ()) :=
  ⟨by decide, by decide,
    (c8_navigation ⟨2, [⟨"a", []⟩, ⟨"b", []⟩, ⟨"c", []⟩]⟩
      (by decide)).1 (by decide)⟩

/-- C10: frame isolation. No core operation changes any frame's text, and
each of setCursor, advance, retreat, save and record changes at most the
edit sequence of the current frame, leaving all other frames untouched. -/
theorem c10_frame_isolation :
    ∀ (c : Checkpoint) (pos : Int) (w : Bool) (s e : Nat) (st : Bool),
      InvC c →
      (textPreserved c (c.setHead pos).1 ∧ isolatedAt c (c.setHead pos).1) ∧
      (textPreserved c (appNext c).1 ∧ isolatedAt c (appNext c).1) ∧
      (textPreserved c (appPrev c).1 ∧ isolatedAt c (appPrev c).1) ∧
      (textPreserved c (c.save w).1 ∧ isolatedAt c (c.save w).1) ∧
      (textPreserved c (appRecord c s e st) ∧
        isolatedAt c (appRecord c s e st)) := by
  intro c pos w s e st h
  obtain ⟨f, hf⟩ := exists_frame_of_inv c h
  have hset : ∀ q : Int, textPreserved c (c.setHead q).1 ∧
      isolatedAt c (c.setHead q).1 := by
    intro q
    rw [setHead_eq_of_inv c q h f hf]
    by_cases hp : 0 ≤ q ∧ q < (c.frames.length : Int)
    · rw [if_pos hp]
      exact shape_isolation c f ({ f with anno := cleanup f.anno }) hf rfl _ rfl
    · rw [if_neg hp]
      exact isolation_refl c
  refine ⟨hset pos, ?_, ?_, ?_, ?_⟩
  · rw [appNext]
    by_cases hfin : c.isfinal = true
    · rw [if_pos hfin]
      exact isolation_refl c
    · rw [if_neg hfin]
      exact hset _
  · rw [appPrev]
    by_cases hfir : c.isfirst = true
    · rw [if_pos hfir]
      exact isolation_refl c
    · rw [if_neg hfir]
      exact hset _
  · rw [save_eq_of_inv c w h f hf]
    exact shape_isolation c f ({ f with anno := cleanup f.anno }) hf rfl _ rfl
  · rw [record_eq_of_inv c s e st h f hf]
    exact shape_isolation c f ({ f with anno := f.anno ++ [(s, e, st)] }) hf
      rfl _ rfl

theorem c10_frame_isolation_witness :
    InvC ⟨0, [⟨"a", [(0, 2, HIGH)]⟩]⟩ ∧
    textPreserved ⟨0, [⟨"a", [(0, 2, HIGH)]⟩]⟩
      ((⟨0, [⟨"a", [(0, 2, HIGH)]⟩]⟩ : Checkpoint).save false).1 :=
  ⟨by decide,
    ((c10_frame_isolation ⟨0, [⟨"a", [(0, 2, HIGH)]⟩]⟩ 0 false 0 0 true
      (by decide)).2.2.2.1).1⟩

end Annohelper
